/-
Verification of the STV election-analysis program (`main.py`) against its
natural-language specification.

The program is embedded shallowly:
* a Python ballot `[votes, ranks]` becomes a `Ballot` structure with an
  integer weight (Python integers are unbounded, weights may go negative
  after coalition subtraction) and a list of candidate identifiers;
* a `Profile` object becomes a structure holding the ballot list and the
  `alternatives` set;
* each method is a function; methods that in Python mutate `self` return the
  new profile, and the three read-only methods (`plurality_scores`,
  `stv_rule`, `force_stv_winner`) are written as state-passing loops that
  thread the profile through every iteration, so that "the call leaves the
  profile unchanged" is a provable statement rather than a triviality;
* fallible code (Python exceptions) returns `Option`/`Except`.
-/
import Mathlib

namespace STV

/-- A weighted ballot: Python `[votes, ranks]` (source lines 41, 43). -/
structure Ballot where
  votes : Int
  ranking : List Nat
deriving DecidableEq

/-- The profile object: the ordered ballot list plus the set of alternatives
seen (source `Profile.__init__`, lines 20-43). -/
structure Profile where
  ballots : List Ballot
  alternatives : Finset Nat
deriving DecidableEq

/-- `Profile.__len__` (source lines 51-52): the total weight
`sum(i[0] for i in self.ballots)`. -/
def profile_len (P : Profile) : Int :=
  (P.ballots.map (·.votes)).sum

/-- The inner scan of `plurality_scores` (source lines 71-74): walk the
ranking left to right and stop at the first candidate that is in `active`
(`break`); `none` when the ranking holds no active candidate. -/
def firstActive (active : Finset Nat) : List Nat → Option Nat
  | [] => none
  | c :: rest => if c ∈ active then some c else firstActive active rest

/-- `Profile.plurality_scores` (source lines 62-76).  The Python dict
`{c: 0 for c in active}` is modelled as a function `Nat → Int` initialised to
`0`; its real domain is `active`.  Each ballot adds its full weight to its
first active candidate, if any.  The accumulator also carries the profile
component of the state, mirroring that each loop iteration reads
`self.ballots` and never assigns to `self`. -/
def plurality_scores_run (prof : Profile) (active : Finset Nat) :
    (Nat → Int) × Profile :=
  prof.ballots.foldl
    (fun acc b =>
      match firstActive active b.ranking with
      | some c => (Function.update acc.1 c (acc.1 c + b.votes), acc.2)
      | none => acc)
    (fun _ => 0, prof)

/-- The score dictionary returned by `Profile.plurality_scores`. -/
def plurality_scores (prof : Profile) (active : Finset Nat) : Nat → Int :=
  (plurality_scores_run prof active).1

/-- One round of `Profile.stv_rule` plus the rest of the loop
(source lines 108-120).  `min(scores.values())` is the infimum of the scores
over the dict's key set `active`; `to_eliminate` collects all candidates at
that minimum.  The loop runs while `active` is non-empty; the fuel argument
is structural and `stv_rule` passes `active.card`, which suffices because
every round removes at least one candidate (`stv_round_nonempty` below). -/
def stv_loop : Nat → Finset Nat × Profile → List (Finset Nat) × Profile
  | 0, (_, prof) => ([], prof)
  | fuel + 1, (active, prof) =>
    if h : active.Nonempty then
      let sc := plurality_scores_run prof active
      let min_score := active.inf' h sc.1
      let to_eliminate := active.filter fun c => sc.1 c = min_score
      let rest := stv_loop fuel (active \ to_eliminate, sc.2)
      (to_eliminate :: rest.1, rest.2)
    else ([], prof)

/-- `Profile.stv_rule` (source lines 98-124).  Returns
`((winners, elimination_order), profile-after-the-call)`.  The Python line
`winners = elimination_order[-1]` raises `IndexError` on an empty trace
(only possible when `num_candidates = 0`); indexing is therefore modelled
with `List.getLast?`. -/
def stv_rule (prof : Profile) (num_candidates : Nat) :
    (Option (Finset Nat) × List (Finset Nat)) × Profile :=
  let active := Finset.Icc 1 num_candidates
  let r := stv_loop active.card (active, prof)
  ((r.1.getLast?, r.1), r.2)

/-- One round of `Profile.force_stv_winner` (source lines 133-155).
The Python code sorts the dict values ascending
(`score_list = sorted(list(scores.values()))`), takes `min(score_list)` (its
head), and, when `alternative` sits in the minimum tier, executes
`score_list.pop(0)` — removing ONE copy of the minimum — and takes the
minimum of the remainder.  On the multiset `M` of scores this is exactly:
`m = least value of M`, then `new_min = least value of M.erase m`; sorting
serves only to expose these two minima, so the round is embedded at the
multiset level.  The `(∅, 0)` fallbacks correspond to `min` of an empty
sequence, unreachable under the loop guard `len(active) > 1`. -/
def force_round (scores : Nat → Int) (active : Finset Nat) (alternative : Nat) :
    Finset Nat × Int :=
  if h : active.Nonempty then
    let min_score := active.inf' h scores
    let to_eliminate := active.filter fun c => scores c = min_score
    if alternative ∈ to_eliminate then
      let rest : Multiset Int := (active.val.map scores).erase min_score
      if h2 : rest.toFinset.Nonempty then
        let new_min_score := rest.toFinset.inf' h2 id
        ((active.filter fun c => scores c = new_min_score) \ {alternative},
          new_min_score - min_score + 1)
      else (∅, 0)
    else (to_eliminate, 0)
  else (∅, 0)

/-- The `while len(active) > 1` loop of `Profile.force_stv_winner`
(source lines 132-158), threading the profile through every iteration.
Returns `((elimination_order, savior_sizes), profile)`.  As in `stv_loop`,
fuel `active.card` is enough because each round eliminates at least one
candidate. -/
def force_loop (alternative : Nat) :
    Nat → Finset Nat × Profile → (List (Finset Nat) × List Int) × Profile
  | 0, (_, prof) => (([], []), prof)
  | fuel + 1, (active, prof) =>
    if 1 < active.card then
      let sc := plurality_scores_run prof active
      let round := force_round sc.1 active alternative
      let rest := force_loop alternative fuel (active \ round.1, sc.2)
      ((round.1 :: rest.1.1, round.2 :: rest.1.2), rest.2)
    else (([], []), prof)

/-- `Profile.force_stv_winner` (source lines 126-162).  The source reads the
module-level variable `num_candidates` (set to 11 when the file runs as a
script); it is made an explicit parameter here.  Line 161
(`winners = elimination_order[-1]`, unused by the caller) raises `IndexError`
when the trace is empty, hence the `Except`. -/
def force_stv_winner (prof : Profile) (alternative : Nat)
    (num_candidates : Nat) : Except String (List Int) × Profile :=
  let active := Finset.Icc 1 num_candidates
  let r := force_loop alternative active.card (active, prof)
  (match r.1.1.getLast? with
   | none => .error "IndexError: list index out of range"
   | some _ => .ok r.1.2, r.2)

/-- `Profile.add_ballot` (source lines 78-85): add the weight to the first
entry with an identical ranking (`break`), else append (`for … else`). -/
def add_ballot_list (n_voters : Int) (ballot : List Nat) :
    List Ballot → List Ballot
  | [] => [⟨n_voters, ballot⟩]
  | b :: bs =>
    if b.ranking = ballot then ⟨b.votes + n_voters, b.ranking⟩ :: bs
    else b :: add_ballot_list n_voters ballot bs

/-- `Profile.add_ballot` lifted to profiles. -/
def add_ballot (P : Profile) (n_voters : Int) (ballot : List Nat) : Profile :=
  { P with ballots := add_ballot_list n_voters ballot P.ballots }

/-- `Profile.apply_coalition` (source lines 87-96).  `if not len(coalition)`
guards on the coalition's TOTAL WEIGHT (`__len__`) being zero.  The inner
`for ballot in self.ballots` has no `break`: every entry sharing the
coalition entry's ranking is decremented.  Zero-weight entries are then
pruned (`if i[0]`, Python truthiness: keep non-zero, including negative),
and one merged entry of total coalition weight is inserted via
`add_ballot`. -/
def apply_coalition (P : Profile) (coalition : Profile)
    (shared_vote : List Nat) : Profile :=
  if profile_len coalition = 0 then P
  else
    let subtracted := coalition.ballots.foldl
      (fun bs cb => bs.map fun b =>
        if b.ranking = cb.ranking then ⟨b.votes - cb.votes, b.ranking⟩ else b)
      P.ballots
    { ballots := add_ballot_list (profile_len coalition) shared_vote
        (subtracted.filter fun b => b.votes ≠ 0),
      alternatives := P.alternatives }

/-- `Profile.filter_ballots` (source lines 164-165): the predicate receives
the unpacked weight and ranking (`condition(*i)`). -/
def filter_ballots (P : Profile) (condition : Int → List Nat → Bool) :
    Profile :=
  { P with ballots := P.ballots.filter fun b => condition b.votes b.ranking }

/-- `Profile.order_ballots` (source lines 167-168): `self.ballots.sort(key=key)`.
Python's `list.sort` is a stable sort by the key values; modelled with
Mathlib's stable `List.insertionSort` on `key x ≤ key y`. -/
def order_ballots {κ : Type} [LinearOrder κ] (P : Profile)
    (key : Ballot → κ) : Profile :=
  { P with ballots := P.ballots.insertionSort fun x y => key x ≤ key y }

/-- `Profile.remove_alternative` (source lines 170-173).  The body runs
`if alternative in ballot[0]` — but `ballot[0]` is the integer WEIGHT, not
the ranking, so the membership test raises
`TypeError: argument of type 'int' is not iterable` on the first ballot.
With no ballots the loop body never runs and the call returns normally. -/
def remove_alternative (P : Profile) (alternative : Nat) :
    Except String Profile :=
  match P.ballots with
  | [] => .ok P
  | _ :: _ => .error "TypeError: argument of type int is not iterable"

/-- `Profile.take_n` (source lines 175-188): consume weight entry by entry;
`if not n: break` stops at exactly zero, `number >= n` keeps the first `n`
units of the straddling entry and stops, otherwise the entry is kept whole
and `n` decreases by its weight. -/
def take_n_list : Int → List Ballot → List Ballot
  | _, [] => []
  | n, b :: bs =>
    if n = 0 then []
    else if n ≤ b.votes then [⟨n, b.ranking⟩]
    else ⟨b.votes, b.ranking⟩ :: take_n_list (n - b.votes) bs

/-- `Profile.take_n` lifted to profiles. -/
def take_n (P : Profile) (n : Int) : Profile :=
  { P with ballots := take_n_list n P.ballots }

/-- `one_alternative_first` (source lines 215-224): scan the ranking; `True`
at the first occurrence of `alternative_one`, `False` at the first occurrence
of `alternative_two`, `False` if neither occurs. -/
def one_alternative_first (rank : List Nat)
    (alternative_one alternative_two : Nat) : Bool :=
  match rank with
  | [] => false
  | i :: rest =>
    if alternative_one = i then true
    else if alternative_two = i then false
    else one_alternative_first rest alternative_one alternative_two

/-- The accumulator loop of `lower_ranked_ness` (source lines 227-235):
`turn` flips to `True` in the same iteration that finds `alternative`, and
`badness` moves by `+1` once `turn` holds, `-1` before. -/
def lower_ranked_ness_loop (alternative : Nat) :
    List Nat → Bool → Int → Int
  | [], _, badness => badness
  | a :: rest, turn, badness =>
    let turn' := if alternative = a then true else turn
    lower_ranked_ness_loop alternative rest turn'
      (badness + if turn' then 1 else -1)

/-- `lower_ranked_ness` (source lines 227-235). -/
def lower_ranked_ness (rank : List Nat) (alternative : Nat) : Int :=
  lower_ranked_ness_loop alternative rank false 0

/-- The base coalition profile built inside `new_algorithm`
(source lines 246-250): deep-copy the profile, keep the ballots for which
`one_alternative_first(x, winner, a)` is false, then
`order_ballots(lambda x: not lower_ranked_ness(x[1], a))` — the sort key is
the Python BOOLEAN `not badness`, i.e. `badness == 0` (with `False < True`),
not an arithmetic negation. -/
def coalition_base (profile : Profile) (winner a : Nat) : Profile :=
  order_ballots
    (filter_ballots profile fun _n x => !one_alternative_first x winner a)
    (fun x => decide (lower_ranked_ness x.ranking a = 0))

/-- One execution of the body of the inner `while adjustment_works and
min_adjustment` search loop of `new_algorithm` (source lines 253-279), as a
step on the state `(min_adjustment, minimum)`.  The STV re-evaluation
(lines 254-260) influences this state only through the boolean
`new_winner != winner`, abstracted as `works_at min_adjustment`; quantifying
over `works_at` covers every profile and every Python set-iteration order of
`next(iter(result))`.  `best_coalition` (line 275) never feeds back into the
control flow and is omitted from the state.  The step returns `none` when
the guard fails after the body, i.e. the loop exits. -/
def inner_step (works_at : Int → Bool) (s : Int × Int) : Option (Int × Int) :=
  let works := works_at s.1
  let minimum := if works = true ∧ s.1 < s.2 then s.1 else s.2
  let k₁ := s.1 - 1
  let next : Int × Bool :=
    if works = false ∧ minimum > k₁ + 2 then (k₁ + 2, true) else (k₁, works)
  if next.2 = true ∧ next.1 ≠ 0 then some (next.1, minimum) else none

/-- Iterate `inner_step` for at most `fuel` body executions; `none` means the
loop has exited, `some s` that it is still running with state `s`. -/
def run_inner (works_at : Int → Bool) : Nat → Int × Int → Option (Int × Int)
  | 0, s => some s
  | fuel + 1, s =>
    match inner_step works_at s with
    | none => none
    | some s' => run_inner works_at fuel s'

/-- The round behaviour claimed for `force_stv_winner`, following the claim's
words: when the alternative is in the minimum tier, take the NEXT-HIGHER
DISTINCT score among that round's scores, eliminate exactly the candidates
at that score minus the alternative, and record
`next-higher distinct − min + 1`; `none` where the claim's description is
undefined (no strictly higher score, or no active candidate).  Built for
comparison with `force_round`, never from the source. -/
def force_round_claimed (scores : Nat → Int) (active : Finset Nat)
    (alternative : Nat) : Option (Finset Nat × Int) :=
  if h : active.Nonempty then
    let min_score := active.inf' h scores
    let tier := active.filter fun c => scores c = min_score
    if alternative ∈ tier then
      if h2 : (active.filter fun c => min_score < scores c).Nonempty then
        let nd := (active.filter fun c => min_score < scores c).inf' h2 scores
        some ((active.filter fun c => scores c = nd) \ {alternative},
          nd - min_score + 1)
      else none
    else some (tier, 0)
  else none

/-- `apply_coalition` as the claim describes it: each coalition entry's
weight is subtracted from the FIRST profile entry sharing its exact ranking
only.  Built for comparison with `apply_coalition`, never from the source. -/
def subtract_first (cb : Ballot) : List Ballot → List Ballot
  | [] => []
  | b :: bs =>
    if b.ranking = cb.ranking then ⟨b.votes - cb.votes, b.ranking⟩ :: bs
    else b :: subtract_first cb bs

/-- The claim's version of `apply_coalition` (first matching entry only). -/
def apply_coalition_claimed (P : Profile) (coalition : Profile)
    (shared_vote : List Nat) : Profile :=
  if profile_len coalition = 0 then P
  else
    let subtracted := coalition.ballots.foldl
      (fun bs cb => subtract_first cb bs) P.ballots
    { ballots := add_ballot_list (profile_len coalition) shared_vote
        (subtracted.filter fun b => b.votes ≠ 0),
      alternatives := P.alternatives }

/-- The base coalition profile as the claim describes it: same filter, but
stably sorted by the ARITHMETIC NEGATIVE of the `lower_ranked_ness` badness.
Built for comparison with `coalition_base`, never from the source. -/
def coalition_base_claimed (profile : Profile) (winner a : Nat) : Profile :=
  order_ballots
    (filter_ballots profile fun _n x => !one_alternative_first x winner a)
    (fun x => -(lower_ranked_ness x.ranking a))

/-! ### Lemmas about `plurality_scores` -/

/-- The score fold never touches the profile component of its state. -/
theorem plurality_foldl_snd (active : Finset Nat) :
    ∀ (bs : List Ballot) (acc : (Nat → Int) × Profile),
      (bs.foldl
        (fun acc b =>
          match firstActive active b.ranking with
          | some c => (Function.update acc.1 c (acc.1 c + b.votes), acc.2)
          | none => acc)
        acc).2 = acc.2 := by
  intro bs
  induction bs with
  | nil => intro acc; rfl
  | cons b bs ih =>
    intro acc
    simp only [List.foldl_cons]
    rw [ih]
    cases hfa : firstActive active b.ranking <;> simp [hfa]

/-- `plurality_scores` leaves the profile unchanged. -/
theorem plurality_scores_run_snd (prof : Profile) (active : Finset Nat) :
    (plurality_scores_run prof active).2 = prof :=
  plurality_foldl_snd active prof.ballots _

/-- A candidate found by the left-to-right scan is active. -/
theorem firstActive_mem {active : Finset Nat} :
    ∀ {r : List Nat} {c : Nat}, firstActive active r = some c → c ∈ active := by
  intro r
  induction r with
  | nil => intro c hc; simp [firstActive] at hc
  | cons x r ih =>
    intro c hc
    by_cases hx : x ∈ active
    · simp only [firstActive, if_pos hx, Option.some.injEq] at hc
      exact hc ▸ hx
    · simp only [firstActive, if_neg hx] at hc
      exact ih hc

/-- Characterisation of the score fold: starting from `f`, the final score of
`c` is `f c` plus the total weight of the ballots whose first active
candidate is `c`. -/
theorem plurality_foldl_char (active : Finset Nat) :
    ∀ (bs : List Ballot) (f : Nat → Int) (p : Profile) (c : Nat),
      (bs.foldl
        (fun acc b =>
          match firstActive active b.ranking with
          | some c => (Function.update acc.1 c (acc.1 c + b.votes), acc.2)
          | none => acc)
        (f, p)).1 c
      = f c + ((bs.filter fun b => firstActive active b.ranking = some c).map
          (·.votes)).sum := by
  intro bs
  induction bs with
  | nil => intro f p c; simp
  | cons b bs ih =>
    intro f p c
    cases hfa : firstActive active b.ranking with
    | none =>
      rw [List.foldl_cons, List.filter_cons]
      simp only [hfa]
      simp [ih]
    | some c' =>
      rw [List.foldl_cons, List.filter_cons]
      simp only [hfa]
      by_cases hcc : c' = c
      · subst hcc
        rw [ih]
        simp [Function.update_same, add_assoc]
      · have hcc' : c ≠ c' := fun h => hcc h.symm
        rw [ih]
        rw [Function.update_noteq hcc']
        simp [hcc]

/-- Per-candidate description of `plurality_scores`. -/
theorem plurality_scores_eq (prof : Profile) (active : Finset Nat) (c : Nat) :
    plurality_scores prof active c
      = ((prof.ballots.filter fun b =>
            firstActive active b.ranking = some c).map (·.votes)).sum := by
  have h := plurality_foldl_char active prof.ballots (fun _ => 0) prof c
  simpa [plurality_scores, plurality_scores_run] using h

/-- Weight bookkeeping: summing the score of every active candidate and the
weight of the ballots with no active candidate recovers the total weight. -/
theorem plurality_scores_total (active : Finset Nat) :
    ∀ bs : List Ballot,
      (∑ c ∈ active, ((bs.filter fun b =>
          firstActive active b.ranking = some c).map (·.votes)).sum)
        + ((bs.filter fun b =>
            firstActive active b.ranking = none).map (·.votes)).sum
      = (bs.map (·.votes)).sum := by
  intro bs
  induction bs with
  | nil => simp
  | cons b bs ih =>
    cases hfa : firstActive active b.ranking with
    | none =>
      have hfil : ∀ c : Nat,
          ((b :: bs).filter fun b' => firstActive active b'.ranking = some c)
            = bs.filter fun b' => firstActive active b'.ranking = some c := by
        intro c
        rw [List.filter_cons]
        simp [hfa]
      have hnone : ((b :: bs).filter fun b' =>
            firstActive active b'.ranking = none)
          = b :: bs.filter fun b' => firstActive active b'.ranking = none := by
        rw [List.filter_cons]
        simp [hfa]
      rw [hnone, Finset.sum_congr rfl fun c _ => by rw [hfil c]]
      simp only [List.map_cons, List.sum_cons]
      rw [← ih]
      ring
    | some c₀ =>
      have hc₀ : c₀ ∈ active := firstActive_mem hfa
      have hfil : ∀ c : Nat,
          ((b :: bs).filter fun b' => firstActive active b'.ranking = some c)
            = if c = c₀
              then b :: (bs.filter fun b' => firstActive active b'.ranking = some c)
              else bs.filter fun b' => firstActive active b'.ranking = some c := by
        intro c
        rw [List.filter_cons]
        by_cases hc : c = c₀
        · subst hc; simp [hfa]
        · have hc' : ¬ (c₀ = c) := fun h => hc h.symm
          simp [hfa, hc, hc']
      have hnone : ((b :: bs).filter fun b' =>
            firstActive active b'.ranking = none)
          = bs.filter fun b' => firstActive active b'.ranking = none := by
        rw [List.filter_cons]
        simp [hfa]
      have hsum : (∑ c ∈ active, (((b :: bs).filter fun b' =>
            firstActive active b'.ranking = some c).map (·.votes)).sum)
          = b.votes + ∑ c ∈ active, ((bs.filter fun b' =>
              firstActive active b'.ranking = some c).map (·.votes)).sum := by
        have hrw : ∀ c ∈ active, (((b :: bs).filter fun b' =>
              firstActive active b'.ranking = some c).map (·.votes)).sum
            = (if c = c₀ then b.votes else 0)
              + ((bs.filter fun b' =>
                  firstActive active b'.ranking = some c).map (·.votes)).sum := by
          intro c _
          rw [hfil c]
          by_cases hc : c = c₀ <;> simp [hc]
        rw [Finset.sum_congr rfl hrw, Finset.sum_add_distrib,
          Finset.sum_ite_eq' active c₀ fun _ => b.votes, if_pos hc₀]
      rw [hsum, hnone]
      simp only [List.map_cons, List.sum_cons]
      rw [← ih]
      ring

/-! ### Lemmas about the STV elimination loop -/

/-- Every round of `stv_loop` is non-empty: the candidate attaining the
minimum belongs to `to_eliminate`. -/
theorem stv_round_nonempty {active : Finset Nat} (h : active.Nonempty)
    (scores : Nat → Int) :
    (active.filter fun c => scores c = active.inf' h scores).Nonempty := by
  obtain ⟨c, hc, hceq⟩ := Finset.exists_mem_eq_inf' h scores
  exact ⟨c, Finset.mem_filter.2 ⟨hc, hceq.symm⟩⟩

/-- The STV loop never modifies the profile it reads. -/
theorem stv_loop_snd :
    ∀ (fuel : Nat) (active : Finset Nat) (prof : Profile),
      (stv_loop fuel (active, prof)).2 = prof := by
  intro fuel
  induction fuel with
  | zero => intro active prof; rfl
  | succ fuel ih =>
    intro active prof
    by_cases h : active.Nonempty
    · simp only [stv_loop, dif_pos h]
      rw [ih, plurality_scores_run_snd]
    · simp only [stv_loop, dif_neg h]

/-- Each member of a list of finsets is contained in their fold-union. -/
theorem mem_subset_foldr_union {L : List (Finset Nat)} {s : Finset Nat}
    (hs : s ∈ L) : s ⊆ L.foldr (· ∪ ·) ∅ := by
  induction L with
  | nil => cases hs
  | cons t L ih =>
    rcases List.mem_cons.1 hs with h | h
    · subst h; exact Finset.subset_union_left
    · exact (ih h).trans Finset.subset_union_right

/-- Invariant of the STV elimination loop: with enough fuel (one unit per
candidate suffices), the rounds are non-empty, pairwise disjoint, and their
union is exactly the active set the loop started from. -/
theorem stv_loop_invariant :
    ∀ (fuel : Nat) (active : Finset Nat) (prof : Profile),
      active.card ≤ fuel →
      (∀ s ∈ (stv_loop fuel (active, prof)).1, s.Nonempty) ∧
      List.Pairwise Disjoint (stv_loop fuel (active, prof)).1 ∧
      (stv_loop fuel (active, prof)).1.foldr (· ∪ ·) ∅ = active := by
  intro fuel
  induction fuel with
  | zero =>
    intro active prof hcard
    have : active = ∅ := Finset.card_eq_zero.1 (Nat.le_zero.1 hcard)
    subst this
    exact ⟨fun s hs => absurd hs (List.not_mem_nil s), List.Pairwise.nil, rfl⟩
  | succ fuel ih =>
    intro active prof hcard
    by_cases h : active.Nonempty
    · have hne := stv_round_nonempty h (plurality_scores_run prof active).1
      set elim := active.filter fun c =>
        (plurality_scores_run prof active).1 c
          = active.inf' h (plurality_scores_run prof active).1 with helim
      have hsub : elim ⊆ active := Finset.filter_subset _ _
      have hssub : active \ elim ⊂ active := Finset.sdiff_ssubset hsub hne
      have hcard' : (active \ elim).card ≤ fuel := by
        have := Finset.card_lt_card hssub
        omega
      obtain ⟨ih1, ih2, ih3⟩ := ih (active \ elim)
        (plurality_scores_run prof active).2 hcard'
      have hloop : (stv_loop (fuel + 1) (active, prof)).1
          = elim :: (stv_loop fuel
              (active \ elim, (plurality_scores_run prof active).2)).1 := by
        simp only [stv_loop, dif_pos h]
      refine ⟨?_, ?_, ?_⟩
      · intro s hs
        rw [hloop] at hs
        rcases List.mem_cons.1 hs with hs | hs
        · exact hs ▸ hne
        · exact ih1 s hs
      · rw [hloop]
        refine List.pairwise_cons.2 ⟨?_, ih2⟩
        intro s hs
        have hsset : s ⊆ active \ elim := ih3 ▸ mem_subset_foldr_union hs
        exact Finset.disjoint_sdiff.mono_right hsset
      · rw [hloop]
        simp only [List.foldr_cons, ih3]
        exact Finset.union_sdiff_of_subset hsub
    · have : active = ∅ := Finset.not_nonempty_iff_eq_empty.1 h
      subst this
      simp only [stv_loop, dif_neg h]
      exact ⟨fun s hs => absurd hs (List.not_mem_nil s), List.Pairwise.nil, rfl⟩

/-- Starting the STV loop with no active candidates returns immediately. -/
theorem stv_loop_empty_active (fuel : Nat) (prof : Profile) :
    stv_loop fuel (∅, prof) = ([], prof) := by
  cases fuel with
  | zero => rfl
  | succ fuel => simp [stv_loop]

/-- The force loop never modifies the profile it reads. -/
theorem force_loop_snd (alternative : Nat) :
    ∀ (fuel : Nat) (active : Finset Nat) (prof : Profile),
      (force_loop alternative fuel (active, prof)).2 = prof := by
  intro fuel
  induction fuel with
  | zero => intro active prof; rfl
  | succ fuel ih =>
    intro active prof
    by_cases h : 1 < active.card
    · simp only [force_loop, if_pos h]
      rw [ih, plurality_scores_run_snd]
    · simp only [force_loop, if_neg h]

/-- C1: for every profile and every `num_candidates ≥ 1`, the elimination
trace returned by `stv_rule` consists of pairwise disjoint non-empty rounds
whose union is the initial candidate set `{1, …, num_candidates}`, and the
returned winner set is exactly the final round of the trace. -/
theorem stv_rule_partition (P : Profile) (n : Nat) (hn : 1 ≤ n) :
    (∀ s ∈ (stv_rule P n).1.2, s.Nonempty) ∧
    List.Pairwise Disjoint (stv_rule P n).1.2 ∧
    (stv_rule P n).1.2.foldr (· ∪ ·) ∅ = Finset.Icc 1 n ∧
    ∃ hne : (stv_rule P n).1.2 ≠ [],
      (stv_rule P n).1.1 = some ((stv_rule P n).1.2.getLast hne) := by
  obtain ⟨h1, h2, h3⟩ :=
    stv_loop_invariant (Finset.Icc 1 n).card (Finset.Icc 1 n) P le_rfl
  have htrace : (stv_rule P n).1.2
      = (stv_loop (Finset.Icc 1 n).card (Finset.Icc 1 n, P)).1 := rfl
  have hwin : (stv_rule P n).1.1 = (stv_rule P n).1.2.getLast? := rfl
  have hne : (stv_rule P n).1.2 ≠ [] := by
    intro hemp
    have h1n : (1 : Nat) ∈ Finset.Icc 1 n := Finset.mem_Icc.2 ⟨le_refl 1, hn⟩
    rw [htrace] at hemp
    rw [hemp] at h3
    simp only [List.foldr_nil] at h3
    rw [← h3] at h1n
    exact absurd h1n (Finset.not_mem_empty 1)
  refine ⟨?_, ?_, ?_, hne, ?_⟩
  · rw [htrace]; exact h1
  · rw [htrace]; exact h2
  · rw [htrace]; exact h3
  · rw [hwin]
    exact List.getLast?_eq_getLast _ hne

/-- Witness for C1 at a concrete input. -/
theorem stv_rule_partition_witness :
    (1 ≤ 2) ∧
    ((∀ s ∈ (stv_rule ⟨[⟨10,[1,2]⟩, ⟨5,[2,1]⟩, ⟨3,[]⟩], ∅⟩ 2).1.2, s.Nonempty) ∧
    List.Pairwise Disjoint (stv_rule ⟨[⟨10,[1,2]⟩, ⟨5,[2,1]⟩, ⟨3,[]⟩], ∅⟩ 2).1.2 ∧
    (stv_rule ⟨[⟨10,[1,2]⟩, ⟨5,[2,1]⟩, ⟨3,[]⟩], ∅⟩ 2).1.2.foldr (· ∪ ·) ∅
      = Finset.Icc 1 2 ∧
    ∃ hne : (stv_rule ⟨[⟨10,[1,2]⟩, ⟨5,[2,1]⟩, ⟨3,[]⟩], ∅⟩ 2).1.2 ≠ [],
      (stv_rule ⟨[⟨10,[1,2]⟩, ⟨5,[2,1]⟩, ⟨3,[]⟩], ∅⟩ 2).1.1
        = some ((stv_rule ⟨[⟨10,[1,2]⟩, ⟨5,[2,1]⟩, ⟨3,[]⟩], ∅⟩ 2).1.2.getLast hne)) :=
  ⟨by decide, stv_rule_partition ⟨[⟨10,[1,2]⟩, ⟨5,[2,1]⟩, ⟨3,[]⟩], ∅⟩ 2 (by decide)⟩

/-- C5: with non-negative weights and a non-empty active set, every active
candidate's plurality score is the total weight of the ballots whose first
active candidate it is (`0` if there are none), and the scores summed over
`active` plus the weight of the ballots with no active candidate equal the
profile's total weight. -/
theorem plurality_scores_correct (P : Profile) (active : Finset Nat)
    (hw : ∀ b ∈ P.ballots, 0 ≤ b.votes) (hact : active.Nonempty) :
    (∀ c ∈ active, plurality_scores P active c
        = ((P.ballots.filter fun b =>
            firstActive active b.ranking = some c).map (·.votes)).sum) ∧
    (∑ c ∈ active, plurality_scores P active c)
        + ((P.ballots.filter fun b =>
            firstActive active b.ranking = none).map (·.votes)).sum
      = profile_len P := by
  refine ⟨fun c _ => plurality_scores_eq P active c, ?_⟩
  rw [Finset.sum_congr rfl fun c _ => plurality_scores_eq P active c]
  exact plurality_scores_total active P.ballots

/-- Witness for C5 at a concrete input. -/
theorem plurality_scores_correct_witness :
    ((∀ b ∈ (⟨[⟨10,[1,2]⟩, ⟨5,[2,1]⟩, ⟨3,[]⟩], ∅⟩ : Profile).ballots,
        0 ≤ b.votes) ∧ ({1, 2} : Finset Nat).Nonempty) ∧
    ((∀ c ∈ ({1, 2} : Finset Nat),
        plurality_scores ⟨[⟨10,[1,2]⟩, ⟨5,[2,1]⟩, ⟨3,[]⟩], ∅⟩ {1, 2} c
        = (((⟨[⟨10,[1,2]⟩, ⟨5,[2,1]⟩, ⟨3,[]⟩], ∅⟩ : Profile).ballots.filter fun b =>
            firstActive {1, 2} b.ranking = some c).map (·.votes)).sum) ∧
    (∑ c ∈ ({1, 2} : Finset Nat),
        plurality_scores ⟨[⟨10,[1,2]⟩, ⟨5,[2,1]⟩, ⟨3,[]⟩], ∅⟩ {1, 2} c)
        + (((⟨[⟨10,[1,2]⟩, ⟨5,[2,1]⟩, ⟨3,[]⟩], ∅⟩ : Profile).ballots.filter fun b =>
            firstActive {1, 2} b.ranking = none).map (·.votes)).sum
      = profile_len ⟨[⟨10,[1,2]⟩, ⟨5,[2,1]⟩, ⟨3,[]⟩], ∅⟩) :=
  ⟨⟨by decide, by decide⟩,
    plurality_scores_correct ⟨[⟨10,[1,2]⟩, ⟨5,[2,1]⟩, ⟨3,[]⟩], ∅⟩ {1, 2}
      (by decide) (by decide)⟩

/-- C7 (amended): on a profile with no ballot entries and `num_candidates ≥ 1`
the STV loop terminates after a single round — every candidate scores `0`,
so ALL candidates are eliminated together; the trace is `[{1,…,n}]` and the
winner set is `{1,…,n}`, not the empty trace/winner set of the claim.  The
minimum is never taken over an empty sequence, because the score dict always
holds every active candidate. -/
theorem stv_rule_no_ballots (P : Profile) (n : Nat)
    (hP : P.ballots = []) (hn : 1 ≤ n) :
    (stv_rule P n).1 = (some (Finset.Icc 1 n), [Finset.Icc 1 n]) := by
  have hne : (Finset.Icc 1 n).Nonempty := ⟨1, Finset.mem_Icc.2 ⟨le_refl 1, hn⟩⟩
  obtain ⟨m, hm⟩ : ∃ m, (Finset.Icc 1 n).card = m + 1 := by
    refine ⟨n - 1, ?_⟩
    rw [Nat.card_Icc]
    omega
  have hrun : plurality_scores_run P (Finset.Icc 1 n) = (fun _ => 0, P) := by
    simp [plurality_scores_run, hP]
  have hloop : stv_loop ((Finset.Icc 1 n).card) (Finset.Icc 1 n, P)
      = ([Finset.Icc 1 n], P) := by
    rw [hm]
    simp only [stv_loop, dif_pos hne, hrun]
    have hmin : (Finset.Icc 1 n).inf' hne (fun _ => (0 : Int)) = 0 :=
      Finset.inf'_const hne 0
    have hfil : ((Finset.Icc 1 n).filter fun c =>
          (fun _ => (0 : Int)) c = (Finset.Icc 1 n).inf' hne (fun _ => (0 : Int)))
        = Finset.Icc 1 n := by
      rw [hmin]
      simp
    rw [hfil, Finset.sdiff_self, stv_loop_empty_active]
  show ((stv_loop ((Finset.Icc 1 n).card) (Finset.Icc 1 n, P)).1.getLast?,
      (stv_loop ((Finset.Icc 1 n).card) (Finset.Icc 1 n, P)).1) = _
  rw [hloop]
  rfl

/-- Witness for C7's amended theorem at a concrete input. -/
theorem stv_rule_no_ballots_witness :
    ((⟨[], ∅⟩ : Profile).ballots = [] ∧ 1 ≤ 2) ∧
    (stv_rule ⟨[], ∅⟩ 2).1 = (some (Finset.Icc 1 2), [Finset.Icc 1 2]) :=
  ⟨⟨rfl, by decide⟩, stv_rule_no_ballots ⟨[], ∅⟩ 2 rfl (by decide)⟩

/-- Counterexample to C7 as stated: with no ballots and one candidate the
trace is `[{1}]` and the winner set `{1}` — neither is empty. -/
theorem stv_rule_no_ballots_cex :
    (stv_rule ⟨[], ∅⟩ 1).1.2 = [{1}]
      ∧ (stv_rule ⟨[], ∅⟩ 1).1.1 = some {1}
      ∧ (stv_rule ⟨[], ∅⟩ 1).1.2 ≠ []
      ∧ (stv_rule ⟨[], ∅⟩ 1).1.1 ≠ some ∅ := by decide

/-- C10: `plurality_scores`, `stv_rule` and `force_stv_winner` leave the
profile they are invoked on — ballot list and alternatives set — unchanged:
threading the profile through every loop iteration returns it intact. -/
theorem methods_read_only (P : Profile) (active : Finset Nat)
    (alternative num_candidates nc' : Nat) :
    (plurality_scores_run P active).2 = P
      ∧ (stv_rule P num_candidates).2 = P
      ∧ (force_stv_winner P alternative nc').2 = P := by
  refine ⟨plurality_scores_run_snd P active, ?_, ?_⟩
  · show (stv_loop ((Finset.Icc 1 num_candidates).card)
        (Finset.Icc 1 num_candidates, P)).2 = P
    exact stv_loop_snd _ _ P
  · show (force_loop alternative ((Finset.Icc 1 nc').card)
        (Finset.Icc 1 nc', P)).2 = P
    exact force_loop_snd alternative _ _ P

/-! ### Lemmas about `force_round` -/

/-- Unfolded shape of `force_round` on a non-empty active set. -/
theorem force_round_eq (scores : Nat → Int) (active : Finset Nat)
    (alternative : Nat) (h : active.Nonempty) :
    force_round scores active alternative
      = if alternative ∈ active.filter (fun c => scores c = active.inf' h scores)
        then (if h2 : ((active.val.map scores).erase
              (active.inf' h scores)).toFinset.Nonempty
          then ((active.filter fun c => scores c =
                  ((active.val.map scores).erase
                    (active.inf' h scores)).toFinset.inf' h2 id) \ {alternative},
              ((active.val.map scores).erase
                  (active.inf' h scores)).toFinset.inf' h2 id
                - active.inf' h scores + 1)
          else (∅, 0))
        else (active.filter (fun c => scores c = active.inf' h scores), 0) := by
  rw [force_round, dif_pos h]

/-- Removing one copy of the alternative's score from the score multiset is
removing the alternative from the candidate set. -/
theorem erase_score_eq_erase_alt (scores : Nat → Int) {active : Finset Nat}
    {alternative : Nat} (halt : alternative ∈ active) :
    (active.val.map scores).erase (scores alternative)
      = (active.erase alternative).val.map scores := by
  have hval : alternative ::ₘ active.val.erase alternative = active.val :=
    Multiset.cons_erase (Finset.mem_def.1 halt)
  have hmap : active.val.map scores
      = scores alternative ::ₘ (active.val.erase alternative).map scores := by
    rw [← Multiset.map_cons, hval]
  rw [hmap, Multiset.erase_cons_head, Finset.erase_val]

/-- The least remaining score value is the least score of the remaining
candidates. -/
theorem toFinset_inf'_map (scores : Nat → Int) (t : Finset Nat)
    (ht : t.Nonempty) (h2 : (t.val.map scores).toFinset.Nonempty) :
    (t.val.map scores).toFinset.inf' h2 id = t.inf' ht scores := by
  apply le_antisymm
  · apply Finset.le_inf'
    intro b hb
    have hmem : scores b ∈ (t.val.map scores).toFinset := by
      rw [Multiset.mem_toFinset]
      exact Multiset.mem_map.2 ⟨b, Finset.mem_def.1 hb, rfl⟩
    exact Finset.inf'_le id hmem
  · apply Finset.le_inf'
    intro x hx
    rw [Multiset.mem_toFinset] at hx
    obtain ⟨c, hc, rfl⟩ := Multiset.mem_map.1 hx
    exact Finset.inf'_le scores (Finset.mem_def.2 hc)

/-- C2 (amended): in a round of `force_stv_winner` with at least two active
candidates, (i) when the alternative is NOT at the minimum score the round
records savior size `0` and eliminates the minimum tier; (ii) when the
alternative IS at the minimum, the code pops a single copy of the minimum
from the sorted score list, so the recorded savior size is
`m' − min + 1` where `m'` is the least score among the OTHER active
candidates (the next-higher distinct score only when the alternative is the
unique minimum), and the eliminated set is the candidates scoring `m'` minus
the alternative; (iii) in particular, when another candidate ties the
alternative at the minimum, `m' = min` and the recorded savior size is `1`,
not `next-higher distinct − min + 1`. -/
theorem force_round_correct (scores : Nat → Int) (active : Finset Nat)
    (alternative : Nat) (hcard : 1 < active.card)
    (halt : alternative ∈ active) (h : active.Nonempty)
    (h' : (active.erase alternative).Nonempty) :
    (scores alternative ≠ active.inf' h scores →
      force_round scores active alternative
        = (active.filter fun c => scores c = active.inf' h scores, 0)) ∧
    (scores alternative = active.inf' h scores →
      force_round scores active alternative
        = ((active.filter fun c =>
              scores c = (active.erase alternative).inf' h' scores)
                \ {alternative},
           (active.erase alternative).inf' h' scores
             - active.inf' h scores + 1)) ∧
    ((scores alternative = active.inf' h scores ∧
        ∃ c ∈ active.erase alternative, scores c = active.inf' h scores) →
      (active.erase alternative).inf' h' scores = active.inf' h scores ∧
      (force_round scores active alternative).2 = 1) := by
  have hpart2 : scores alternative = active.inf' h scores →
      force_round scores active alternative
        = ((active.filter fun c =>
              scores c = (active.erase alternative).inf' h' scores)
                \ {alternative},
           (active.erase alternative).inf' h' scores
             - active.inf' h scores + 1) := by
    intro heq
    have hin : alternative ∈ active.filter
        (fun c => scores c = active.inf' h scores) :=
      Finset.mem_filter.2 ⟨halt, heq⟩
    have herase : (active.val.map scores).erase (active.inf' h scores)
        = (active.erase alternative).val.map scores := by
      rw [← heq]
      exact erase_score_eq_erase_alt scores halt
    have h2 : ((active.val.map scores).erase
        (active.inf' h scores)).toFinset.Nonempty := by
      rw [herase]
      obtain ⟨c, hc⟩ := h'
      exact ⟨scores c, Multiset.mem_toFinset.2
        (Multiset.mem_map.2 ⟨c, Finset.mem_def.1 hc, rfl⟩)⟩
    have hinf : ((active.val.map scores).erase
          (active.inf' h scores)).toFinset.inf' h2 id
        = (active.erase alternative).inf' h' scores := by
      have h2' : ((active.erase alternative).val.map scores).toFinset.Nonempty := by
        rw [← herase]; exact h2
      calc ((active.val.map scores).erase
            (active.inf' h scores)).toFinset.inf' h2 id
          = ((active.erase alternative).val.map scores).toFinset.inf' h2' id := by
            congr 1
            rw [herase]
        _ = (active.erase alternative).inf' h' scores :=
            toFinset_inf'_map scores _ h' h2'
    rw [force_round_eq scores active alternative h, if_pos hin, dif_pos h2, hinf]
  refine ⟨?_, hpart2, ?_⟩
  · intro hne
    have hnotin : alternative ∉ active.filter
        (fun c => scores c = active.inf' h scores) := by
      intro hmem
      exact hne (Finset.mem_filter.1 hmem).2
    rw [force_round_eq scores active alternative h, if_neg hnotin]
  · rintro ⟨heq, c, hc, hceq⟩
    have hle : (active.erase alternative).inf' h' scores
        ≤ active.inf' h scores := hceq ▸ Finset.inf'_le scores hc
    have hge : active.inf' h scores
        ≤ (active.erase alternative).inf' h' scores := by
      apply Finset.le_inf'
      intro b hb
      exact Finset.inf'_le scores (Finset.mem_of_mem_erase hb)
    have heqinf : (active.erase alternative).inf' h' scores
        = active.inf' h scores := le_antisymm hle hge
    refine ⟨heqinf, ?_⟩
    rw [hpart2 heq, heqinf]
    ring

/-- Witness for C2's amended theorem at a concrete input. -/
theorem force_round_correct_witness :
    ((1 < ({1, 2, 3} : Finset Nat).card) ∧ 1 ∈ ({1, 2, 3} : Finset Nat) ∧
      ({1, 2, 3} : Finset Nat).Nonempty ∧
      (({1, 2, 3} : Finset Nat).erase 1).Nonempty) ∧
    (((fun c => if c = 3 then (3 : Int) else 1) 1
        ≠ ({1, 2, 3} : Finset Nat).inf'
            (by decide) (fun c => if c = 3 then (3 : Int) else 1) →
      force_round (fun c => if c = 3 then (3 : Int) else 1) {1, 2, 3} 1
        = (({1, 2, 3} : Finset Nat).filter fun c =>
            (if c = 3 then (3 : Int) else 1)
              = ({1, 2, 3} : Finset Nat).inf'
                  (by decide) (fun c => if c = 3 then (3 : Int) else 1), 0)) ∧
    ((fun c => if c = 3 then (3 : Int) else 1) 1
        = ({1, 2, 3} : Finset Nat).inf'
            (by decide) (fun c => if c = 3 then (3 : Int) else 1) →
      force_round (fun c => if c = 3 then (3 : Int) else 1) {1, 2, 3} 1
        = ((({1, 2, 3} : Finset Nat).filter fun c =>
              (if c = 3 then (3 : Int) else 1)
                = (({1, 2, 3} : Finset Nat).erase 1).inf'
                    (by decide) (fun c => if c = 3 then (3 : Int) else 1))
                  \ {1},
           (({1, 2, 3} : Finset Nat).erase 1).inf'
               (by decide) (fun c => if c = 3 then (3 : Int) else 1)
             - ({1, 2, 3} : Finset Nat).inf'
                 (by decide) (fun c => if c = 3 then (3 : Int) else 1) + 1)) ∧
    (((fun c => if c = 3 then (3 : Int) else 1) 1
        = ({1, 2, 3} : Finset Nat).inf'
            (by decide) (fun c => if c = 3 then (3 : Int) else 1) ∧
        ∃ c ∈ ({1, 2, 3} : Finset Nat).erase 1,
          (if c = 3 then (3 : Int) else 1)
            = ({1, 2, 3} : Finset Nat).inf'
                (by decide) (fun c => if c = 3 then (3 : Int) else 1)) →
      (({1, 2, 3} : Finset Nat).erase 1).inf'
          (by decide) (fun c => if c = 3 then (3 : Int) else 1)
        = ({1, 2, 3} : Finset Nat).inf'
            (by decide) (fun c => if c = 3 then (3 : Int) else 1) ∧
      (force_round (fun c => if c = 3 then (3 : Int) else 1) {1, 2, 3} 1).2
        = 1)) :=
  ⟨⟨by decide, by decide, by decide, by decide⟩,
    force_round_correct (fun c => if c = 3 then (3 : Int) else 1) {1, 2, 3} 1
      (by decide) (by decide) (by decide) (by decide)⟩

/-- Counterexample to C2 as stated: with scores `{1 ↦ 1, 2 ↦ 1, 3 ↦ 3}` the
alternative `1` ties candidate `2` at the minimum `1`.  The next-higher
DISTINCT score is `3`, so the claim predicts savior size `3 − 1 + 1 = 3` and
eliminated set `{3}`; the code pops a single copy of the minimum, finds
`new_min_score = 1` again, records savior size `1` and eliminates `{2}`. -/
theorem force_round_cex :
    force_round (fun c => if c = 3 then (3 : Int) else 1) {1, 2, 3} 1
        = ({2}, 1)
      ∧ force_round_claimed (fun c => if c = 3 then (3 : Int) else 1)
          {1, 2, 3} 1 = some ({3}, 3)
      ∧ some (force_round (fun c => if c = 3 then (3 : Int) else 1) {1, 2, 3} 1)
        ≠ force_round_claimed (fun c => if c = 3 then (3 : Int) else 1)
            {1, 2, 3} 1 := by decide

/-! ### Lemmas about `apply_coalition` -/

/-- The nested subtraction loop of `apply_coalition`: folding the per-entry
subtractions over the whole coalition decrements every profile entry by the
TOTAL coalition weight carried by its ranking (so an entry whose ranking
matches no coalition entry is unchanged). -/
theorem subtract_foldl (cbs : List Ballot) :
    ∀ L : List Ballot,
      cbs.foldl (fun bs cb => bs.map fun b =>
          if b.ranking = cb.ranking then ⟨b.votes - cb.votes, b.ranking⟩ else b) L
      = L.map fun b => ⟨b.votes - ((cbs.filter fun cb =>
          cb.ranking = b.ranking).map (·.votes)).sum, b.ranking⟩ := by
  induction cbs with
  | nil =>
    intro L
    simp only [List.foldl_nil, List.filter_nil, List.map_nil, List.sum_nil,
      sub_zero]
    exact (List.map_id' L).symm
  | cons cb cbs ih =>
    intro L
    rw [List.foldl_cons, ih, List.map_map]
    apply List.map_congr_left
    intro b _
    by_cases hr : b.ranking = cb.ranking
    · have hr' : cb.ranking = b.ranking := hr.symm
      have hfil : List.filter (fun x => decide (x.ranking = b.ranking)) (cb :: cbs)
          = cb :: List.filter (fun x => decide (x.ranking = b.ranking)) cbs :=
        List.filter_cons_of_pos (by simp [hr'])
      simp only [Function.comp_apply, if_pos hr, hfil, List.map_cons,
        List.sum_cons, Ballot.mk.injEq]
      exact ⟨by ring, trivial⟩
    · have hr' : ¬ (cb.ranking = b.ranking) := fun hh => hr hh.symm
      have hfil : List.filter (fun x => decide (x.ranking = b.ranking)) (cb :: cbs)
          = List.filter (fun x => decide (x.ranking = b.ranking)) cbs :=
        List.filter_cons_of_neg (by simp [hr'])
      simp only [Function.comp_apply, if_neg hr, hfil]

/-- C3 (amended): `apply_coalition` is a no-op when the coalition's total
weight is zero; otherwise it subtracts each coalition entry's weight from
EVERY profile entry that shares its exact ranking (hence from the first such
entry; an entry matching no coalition entry is untouched), prunes zero-weight
entries, and inserts one merged entry of total coalition weight under the
shared ranking via `add_ballot`; applying coalition `{(4, [3,1])}` to a
parent containing `(10, [3,1])` with shared vote `[9]` leaves `(6, [3,1])`
and adds `(4, [9])`. -/
theorem apply_coalition_correct (P C : Profile) (v : List Nat) :
    (profile_len C = 0 → apply_coalition P C v = P) ∧
    (profile_len C ≠ 0 → apply_coalition P C v =
      { ballots := add_ballot_list (profile_len C) v
          ((P.ballots.map fun b => ⟨b.votes - ((C.ballots.filter fun cb =>
              cb.ranking = b.ranking).map (·.votes)).sum, b.ranking⟩).filter
            fun b => b.votes ≠ 0),
        alternatives := P.alternatives }) ∧
    (apply_coalition ⟨[⟨10,[3,1]⟩], ∅⟩ ⟨[⟨4,[3,1]⟩], ∅⟩ [9]).ballots
      = [⟨6,[3,1]⟩, ⟨4,[9]⟩] := by
  refine ⟨fun h => by rw [apply_coalition, if_pos h], fun h => ?_, by decide⟩
  rw [apply_coalition, if_neg h]
  rw [subtract_foldl C.ballots P.ballots]

/-- Witness for C3's amended theorem at a concrete input. -/
theorem apply_coalition_correct_witness :
    profile_len (⟨[⟨4,[3,1]⟩], ∅⟩ : Profile) ≠ 0 ∧
    apply_coalition ⟨[⟨10,[3,1]⟩], ∅⟩ ⟨[⟨4,[3,1]⟩], ∅⟩ [9] =
      { ballots := add_ballot_list (profile_len (⟨[⟨4,[3,1]⟩], ∅⟩ : Profile)) [9]
          (((⟨[⟨10,[3,1]⟩], ∅⟩ : Profile).ballots.map fun b =>
            ⟨b.votes - (((⟨[⟨4,[3,1]⟩], ∅⟩ : Profile).ballots.filter fun cb =>
              cb.ranking = b.ranking).map (·.votes)).sum, b.ranking⟩).filter
            fun b => b.votes ≠ 0),
        alternatives := (⟨[⟨10,[3,1]⟩], ∅⟩ : Profile).alternatives } :=
  ⟨by decide, (apply_coalition_correct ⟨[⟨10,[3,1]⟩], ∅⟩ ⟨[⟨4,[3,1]⟩], ∅⟩
    [9]).2.1 (by decide)⟩

/-- Counterexample to C3 as stated: on a parent with two entries of the SAME
ranking, the code subtracts the coalition entry's weight from both (there is
no `break` in the inner loop), not just from the first one as claimed. -/
theorem apply_coalition_cex :
    (apply_coalition ⟨[⟨5,[1]⟩, ⟨5,[1]⟩], ∅⟩ ⟨[⟨2,[1]⟩], ∅⟩ [2]).ballots
        = [⟨3,[1]⟩, ⟨3,[1]⟩, ⟨2,[2]⟩]
      ∧ (apply_coalition_claimed ⟨[⟨5,[1]⟩, ⟨5,[1]⟩], ∅⟩
          ⟨[⟨2,[1]⟩], ∅⟩ [2]).ballots = [⟨3,[1]⟩, ⟨5,[1]⟩, ⟨2,[2]⟩]
      ∧ apply_coalition ⟨[⟨5,[1]⟩, ⟨5,[1]⟩], ∅⟩ ⟨[⟨2,[1]⟩], ∅⟩ [2]
        ≠ apply_coalition_claimed ⟨[⟨5,[1]⟩, ⟨5,[1]⟩], ∅⟩
            ⟨[⟨2,[1]⟩], ∅⟩ [2] := by decide

/-! ### Lemmas about `take_n` -/

/-- A ballot list expanded to one ranking per unit of weight. -/
def flatten_ballots (bs : List Ballot) : List (List Nat) :=
  bs.flatMap fun b => List.replicate b.votes.toNat b.ranking

/-- A list of positive-weight ballots with zero total weight is empty. -/
theorem pos_sum_zero {bs : List Ballot} (hpos : ∀ b ∈ bs, 0 < b.votes)
    (hsum : (bs.map (·.votes)).sum ≤ 0) : bs = [] := by
  cases bs with
  | nil => rfl
  | cons b bs =>
    exfalso
    have hb : 0 < b.votes := hpos b (List.mem_cons_self b bs)
    have hrest : 0 ≤ (bs.map (·.votes)).sum :=
      List.sum_nonneg fun x hx => by
        obtain ⟨b', hb', rfl⟩ := List.mem_map.1 hx
        exact le_of_lt (hpos b' (List.mem_cons_of_mem b hb'))
    rw [List.map_cons, List.sum_cons] at hsum
    omega

/-- `take_n` keeps every entry unchanged when `n` is at least the total
weight. -/
theorem take_n_list_all :
    ∀ (bs : List Ballot) (n : Int), (∀ b ∈ bs, 0 < b.votes) →
      (bs.map (·.votes)).sum ≤ n → take_n_list n bs = bs := by
  intro bs
  induction bs with
  | nil => intro n _ _; rfl
  | cons b bs ih =>
    intro n hpos hn
    have hb : 0 < b.votes := hpos b (List.mem_cons_self b bs)
    have hrest : 0 ≤ (bs.map (·.votes)).sum :=
      List.sum_nonneg fun x hx => by
        obtain ⟨b', hb', rfl⟩ := List.mem_map.1 hx
        exact le_of_lt (hpos b' (List.mem_cons_of_mem b hb'))
    rw [List.map_cons, List.sum_cons] at hn
    rw [take_n_list, if_neg (by omega : ¬ n = 0)]
    by_cases hle : n ≤ b.votes
    · have hbs : bs = [] := pos_sum_zero
        (fun b' hb' => hpos b' (List.mem_cons_of_mem b hb')) (by omega)
      subst hbs
      simp only [List.map_nil, List.sum_nil] at hn
      have hnv : n = b.votes := le_antisymm hle (by omega)
      rw [if_pos hle, hnv]
    · rw [if_neg hle, ih (n - b.votes)
        (fun b' hb' => hpos b' (List.mem_cons_of_mem b hb')) (by omega)]

/-- Unit-level characterisation of `take_n`: expanding each entry into one
ranking per unit of weight, `take_n n` is the `n`-unit prefix — entries stay
in order, weight is consumed entry by entry, and the straddling entry is
split so that exactly the first `n` units survive. -/
theorem take_n_flatten :
    ∀ (bs : List Ballot) (n : Int), (∀ b ∈ bs, 0 < b.votes) → 0 ≤ n →
      flatten_ballots (take_n_list n bs) = (flatten_ballots bs).take n.toNat := by
  intro bs
  induction bs with
  | nil => intro n _ _; simp [take_n_list, flatten_ballots]
  | cons b bs ih =>
    intro n hpos hn
    have hb : 0 < b.votes := hpos b (List.mem_cons_self b bs)
    by_cases h0 : n = 0
    · subst h0
      simp [take_n_list, flatten_ballots]
    · rw [take_n_list, if_neg h0]
      by_cases hle : n ≤ b.votes
      · rw [if_pos hle]
        have hnn : n.toNat ≤ b.votes.toNat := by omega
        simp only [flatten_ballots, List.flatMap_cons, List.flatMap_nil,
          List.append_nil]
        rw [List.take_append_eq_append_take, List.take_replicate,
          List.length_replicate, Nat.sub_eq_zero_of_le hnn, List.take_zero,
          List.append_nil, Nat.min_eq_left hnn]
      · rw [if_neg hle]
        have hvn : b.votes.toNat ≤ n.toNat := by omega
        have harith : (n - b.votes).toNat = n.toNat - b.votes.toNat := by omega
        simp only [flatten_ballots, List.flatMap_cons]
        have hih := ih (n - b.votes)
          (fun b' hb' => hpos b' (List.mem_cons_of_mem b hb')) (by omega)
        simp only [flatten_ballots] at hih
        rw [hih, harith, List.take_append_eq_append_take, List.take_replicate,
          List.length_replicate, Nat.min_eq_right hvn]

/-- C4: on positive-weight profiles and `n ≥ 0`, `take_n` keeps entries in
order consuming weight entry by entry — at the unit level it is exactly the
`n`-unit prefix, splitting the straddling entry; `take_n 0` is empty;
`take_n n` with `n` at least the total weight keeps all entries unchanged;
and `take_n 7` on `[(10,[1]), (5,[2])]` yields `[(7,[1])]`. -/
theorem take_n_correct (P : Profile) (n : Int)
    (hpos : ∀ b ∈ P.ballots, 0 < b.votes) (hn : 0 ≤ n) :
    (take_n P 0).ballots = [] ∧
    (profile_len P ≤ n → (take_n P n).ballots = P.ballots) ∧
    flatten_ballots ((take_n P n).ballots)
      = (flatten_ballots P.ballots).take n.toNat ∧
    (take_n ⟨[⟨10,[1]⟩, ⟨5,[2]⟩], ∅⟩ 7).ballots = [⟨7,[1]⟩] := by
  refine ⟨?_, ?_, ?_, by decide⟩
  · show take_n_list 0 P.ballots = []
    cases P.ballots with
    | nil => rfl
    | cons b bs => rw [take_n_list, if_pos rfl]
  · intro hlen
    exact take_n_list_all P.ballots n hpos hlen
  · exact take_n_flatten P.ballots n hpos hn

/-- Witness for C4 at a concrete input. -/
theorem take_n_correct_witness :
    ((∀ b ∈ (⟨[⟨10,[1]⟩, ⟨5,[2]⟩], ∅⟩ : Profile).ballots, 0 < b.votes)
        ∧ (0 : Int) ≤ 7) ∧
    ((take_n ⟨[⟨10,[1]⟩, ⟨5,[2]⟩], ∅⟩ 0).ballots = [] ∧
    (profile_len (⟨[⟨10,[1]⟩, ⟨5,[2]⟩], ∅⟩ : Profile) ≤ 7 →
      (take_n ⟨[⟨10,[1]⟩, ⟨5,[2]⟩], ∅⟩ 7).ballots
        = (⟨[⟨10,[1]⟩, ⟨5,[2]⟩], ∅⟩ : Profile).ballots) ∧
    flatten_ballots ((take_n ⟨[⟨10,[1]⟩, ⟨5,[2]⟩], ∅⟩ 7).ballots)
      = (flatten_ballots (⟨[⟨10,[1]⟩, ⟨5,[2]⟩], ∅⟩ : Profile).ballots).take
          (7 : Int).toNat ∧
    (take_n ⟨[⟨10,[1]⟩, ⟨5,[2]⟩], ∅⟩ 7).ballots = [⟨7,[1]⟩]) :=
  ⟨⟨by decide, by decide⟩,
    take_n_correct ⟨[⟨10,[1]⟩, ⟨5,[2]⟩], ∅⟩ 7 (by decide) (by decide)⟩

/-- C6 is a code bug: the claim (remove the candidate from every ranking)
matches the obvious intent, but the source tests membership in `ballot[0]`
— the integer weight — so any profile with at least one ballot raises a
`TypeError` instead; here, removing candidate `2` from `[(1, [2,3])]`. -/
theorem remove_alternative_raises :
    remove_alternative ⟨[⟨1,[2,3]⟩], ∅⟩ 2
      = .error "TypeError: argument of type int is not iterable" := rfl

/-! ### Lemmas about the stable sort with a boolean key -/

/-- Inserting a false-keyed element before a sorted list puts it in front. -/
theorem orderedInsert_key_false {key : Ballot → Bool} {b : Ballot}
    (hb : key b = false) (l : List Ballot) :
    List.orderedInsert (fun x y => key x ≤ key y) b l = b :: l := by
  cases l with
  | nil => rfl
  | cons y l =>
    rw [List.orderedInsert, if_pos]
    rw [hb]
    exact Bool.false_le (key y)

/-- Inserting a true-keyed element into false-keyed entries followed by
true-keyed entries lands exactly between them. -/
theorem orderedInsert_key_true {key : Ballot → Bool} {b : Ballot}
    (hb : key b = true) :
    ∀ l : List Ballot, (∀ x ∈ l, key x = false) →
    ∀ t : List Ballot, (∀ x ∈ t, key x = true) →
      List.orderedInsert (fun x y => key x ≤ key y) b (l ++ t)
        = l ++ b :: t := by
  intro l
  induction l with
  | nil =>
    intro _ t ht
    cases t with
    | nil => rfl
    | cons y t =>
      rw [List.nil_append, List.orderedInsert, if_pos]
      · rfl
      · rw [hb, ht y (List.mem_cons_self y t)]
  | cons z l ih =>
    intro hl t ht
    rw [List.cons_append, List.orderedInsert, if_neg, ih
      (fun x hx => hl x (List.mem_cons_of_mem z hx)) t ht, List.cons_append]
    rw [hb, hl z (List.mem_cons_self z l)]
    decide

/-- Python's stable sort with a two-valued key is exactly the stable
partition: false-keyed entries first in original order, then true-keyed
entries in original order. -/
theorem insertionSort_key_bool (key : Ballot → Bool) :
    ∀ l : List Ballot,
      l.insertionSort (fun x y => key x ≤ key y)
        = l.filter (fun b => !key b) ++ l.filter key := by
  intro l
  induction l with
  | nil => rfl
  | cons b l ih =>
    rw [List.insertionSort, ih]
    have hfalses : ∀ x ∈ l.filter (fun b => !key b), key x = false := by
      intro x hx
      have := (List.mem_filter.1 hx).2
      simpa using this
    have htrues : ∀ x ∈ l.filter key, key x = true := by
      intro x hx
      exact (List.mem_filter.1 hx).2
    cases hb : key b with
    | true =>
      rw [orderedInsert_key_true hb _ hfalses _ htrues,
        List.filter_cons_of_neg (by simp [hb]), List.filter_cons_of_pos hb]
    | false =>
      rw [orderedInsert_key_false hb,
        List.filter_cons_of_pos (by simp [hb]),
        List.filter_cons_of_neg (by simp [hb]), List.cons_append]

/-- `one_alternative_first r w a` holds exactly when `w` occurs in `r`
before any occurrence of `a` (in particular when `w` occurs and `a` does
not). -/
theorem one_alternative_first_iff {w a : Nat} (hwa : w ≠ a) :
    ∀ r : List Nat,
      one_alternative_first r w a = true
        ↔ w ∈ r.takeWhile (fun c => c ≠ a) := by
  intro r
  induction r with
  | nil => simp [one_alternative_first]
  | cons c r ih =>
    rw [one_alternative_first]
    by_cases hw : w = c
    · rw [if_pos hw]
      have hca : (c ≠ a) := fun h => hwa (hw.trans h)
      rw [List.takeWhile_cons, if_pos (by simpa using hca)]
      simp [← hw]
    · rw [if_neg hw]
      by_cases ha : a = c
      · rw [if_pos ha]
        rw [List.takeWhile_cons, if_neg (by simp [ha.symm])]
        simp
      · rw [if_neg ha]
        have hca : (c ≠ a) := fun h => ha h.symm
        rw [List.takeWhile_cons, if_pos (by simpa using hca)]
        rw [ih]
        constructor
        · exact List.mem_cons_of_mem c
        · intro hmem
          rcases List.mem_cons.1 hmem with h | h
          · exact absurd h hw
          · exact h

/-- C8 (amended): inside `new_algorithm` the base coalition profile for
candidate `a` is the deep copy of the input restricted to exactly those
ballots in which the natural winner `w` does not appear before `a`
(including ballots in which `w` is absent), reordered by Python's stable
sort under the BOOLEAN key `not badness` — i.e. ballots whose
`lower_ranked_ness` badness is non-zero keep their relative order at the
front and ballots with badness exactly `0` move to the back — not by the
arithmetic negative of the badness value. -/
theorem coalition_base_correct (P : Profile) (w a : Nat) (hwa : w ≠ a) :
    ((coalition_base P w a).ballots
        = (P.ballots.filter fun b => !one_alternative_first b.ranking w a).filter
            (fun b => !decide (lower_ranked_ness b.ranking a = 0))
          ++ (P.ballots.filter fun b => !one_alternative_first b.ranking w a).filter
            (fun b => decide (lower_ranked_ness b.ranking a = 0))) ∧
    (∀ b : Ballot,
      b ∈ (P.ballots.filter fun b => !one_alternative_first b.ranking w a)
        ↔ b ∈ P.ballots ∧ w ∉ b.ranking.takeWhile (fun c => c ≠ a)) ∧
    (coalition_base P w a).alternatives = P.alternatives ∧
    (coalition_base ⟨[⟨1,[1]⟩, ⟨1,[2,1]⟩, ⟨1,[3,2,1]⟩], ∅⟩ 9 1).ballots
      = [⟨1,[1]⟩, ⟨1,[3,2,1]⟩, ⟨1,[2,1]⟩] := by
  refine ⟨?_, ?_, rfl, by decide⟩
  · show ((P.ballots.filter fun b =>
        !one_alternative_first b.ranking w a).insertionSort fun x y =>
          (decide (lower_ranked_ness x.ranking a = 0) : Bool)
            ≤ decide (lower_ranked_ness y.ranking a = 0)) = _
    exact insertionSort_key_bool
      (fun x => decide (lower_ranked_ness x.ranking a = 0)) _
  · intro b
    rw [List.mem_filter]
    have hiff := one_alternative_first_iff hwa b.ranking
    constructor
    · rintro ⟨hmem, hkey⟩
      refine ⟨hmem, fun hw => ?_⟩
      rw [← hiff] at hw
      rw [hw] at hkey
      cases hkey
    · rintro ⟨hmem, hnw⟩
      refine ⟨hmem, ?_⟩
      rw [← hiff] at hnw
      simp [Bool.not_eq_true] at hnw ⊢
      exact hnw

/-- Witness for C8's amended theorem at a concrete input. -/
theorem coalition_base_correct_witness :
    (9 ≠ 1) ∧
    (((coalition_base ⟨[⟨1,[1]⟩, ⟨1,[2,1]⟩, ⟨1,[3,2,1]⟩], ∅⟩ 9 1).ballots
        = ((⟨[⟨1,[1]⟩, ⟨1,[2,1]⟩, ⟨1,[3,2,1]⟩], ∅⟩ : Profile).ballots.filter
            fun b => !one_alternative_first b.ranking 9 1).filter
            (fun b => !decide (lower_ranked_ness b.ranking 1 = 0))
          ++ ((⟨[⟨1,[1]⟩, ⟨1,[2,1]⟩, ⟨1,[3,2,1]⟩], ∅⟩ : Profile).ballots.filter
            fun b => !one_alternative_first b.ranking 9 1).filter
            (fun b => decide (lower_ranked_ness b.ranking 1 = 0))) ∧
    (∀ b : Ballot,
      b ∈ ((⟨[⟨1,[1]⟩, ⟨1,[2,1]⟩, ⟨1,[3,2,1]⟩], ∅⟩ : Profile).ballots.filter
          fun b => !one_alternative_first b.ranking 9 1)
        ↔ b ∈ (⟨[⟨1,[1]⟩, ⟨1,[2,1]⟩, ⟨1,[3,2,1]⟩], ∅⟩ : Profile).ballots
            ∧ 9 ∉ b.ranking.takeWhile (fun c => c ≠ 1)) ∧
    (coalition_base ⟨[⟨1,[1]⟩, ⟨1,[2,1]⟩, ⟨1,[3,2,1]⟩], ∅⟩ 9 1).alternatives
      = (⟨[⟨1,[1]⟩, ⟨1,[2,1]⟩, ⟨1,[3,2,1]⟩], ∅⟩ : Profile).alternatives ∧
    (coalition_base ⟨[⟨1,[1]⟩, ⟨1,[2,1]⟩, ⟨1,[3,2,1]⟩], ∅⟩ 9 1).ballots
      = [⟨1,[1]⟩, ⟨1,[3,2,1]⟩, ⟨1,[2,1]⟩]) :=
  ⟨by decide,
    coalition_base_correct ⟨[⟨1,[1]⟩, ⟨1,[2,1]⟩, ⟨1,[3,2,1]⟩], ∅⟩ 9 1
      (by decide)⟩

/-- Counterexample to C8 as stated: on ballots `[1]`, `[2,1]`, `[3,2,1]`
(badness values `1`, `0`, `-1` for candidate `1`; winner `9` absent from all
rankings so the filter keeps everything) the code's boolean key
`not badness` sorts to `[[1], [3,2,1], [2,1]]`, while sorting by the
arithmetic negative of badness would give `[[1], [2,1], [3,2,1]]`. -/
theorem coalition_base_cex :
    (coalition_base ⟨[⟨1,[1]⟩, ⟨1,[2,1]⟩, ⟨1,[3,2,1]⟩], ∅⟩ 9 1).ballots
        = [⟨1,[1]⟩, ⟨1,[3,2,1]⟩, ⟨1,[2,1]⟩]
      ∧ (coalition_base_claimed
          ⟨[⟨1,[1]⟩, ⟨1,[2,1]⟩, ⟨1,[3,2,1]⟩], ∅⟩ 9 1).ballots
        = [⟨1,[1]⟩, ⟨1,[2,1]⟩, ⟨1,[3,2,1]⟩]
      ∧ coalition_base ⟨[⟨1,[1]⟩, ⟨1,[2,1]⟩, ⟨1,[3,2,1]⟩], ∅⟩ 9 1
        ≠ coalition_base_claimed
            ⟨[⟨1,[1]⟩, ⟨1,[2,1]⟩, ⟨1,[3,2,1]⟩], ∅⟩ 9 1 := by decide

/-! ### Termination of the inner coalition-size search -/

/-- Termination measure for the inner search loop: the skip-ahead raises `k`
by one net unit per iteration but only while `k + 1 < minimum`, so
`2·minimum − k` decreases on every transition except the single possible
first step at `k = minimum`, which the bump term covers. -/
def inner_measure (s : Int × Int) : Nat :=
  (2 * s.2 - s.1).toNat + (if s.1 = s.2 then 2 else 0)

/-- Any continuing step of the inner search keeps `1 ≤ k ≤ minimum` and
strictly decreases the measure. -/
theorem inner_step_decrease (works_at : Int → Bool) (k m : Int)
    (h1 : 1 ≤ k) (h2 : k ≤ m) :
    ∀ s', inner_step works_at (k, m) = some s' →
      1 ≤ s'.1 ∧ s'.1 ≤ s'.2 ∧
        inner_measure s' < inner_measure (k, m) := by
  intro s' hstep
  unfold inner_step at hstep
  cases hw : works_at k with
  | true =>
    rw [hw] at hstep
    by_cases hkm : k < m
    · by_cases hk0 : k - 1 = 0
      · simp [hkm, hk0] at hstep
      · simp [hkm, hk0] at hstep
        subst hstep
        refine ⟨by omega, by omega, ?_⟩
        have hm1 : inner_measure (k - 1, k) = (2 * k - (k - 1)).toNat := by
          simp [inner_measure, show ¬ (k - 1 = k) by omega]
        have hm2 : inner_measure (k, m) = (2 * m - k).toNat := by
          simp [inner_measure, show ¬ (k = m) by omega]
        rw [hm1, hm2]
        omega
    · have hkm' : k = m := by omega
      by_cases hk0 : k - 1 = 0
      · simp [hkm, hk0] at hstep
      · simp [hkm, hk0] at hstep
        subst hstep
        refine ⟨by omega, by omega, ?_⟩
        have hm1 : inner_measure (k - 1, m) = (2 * m - (k - 1)).toNat := by
          simp [inner_measure, show ¬ (k - 1 = m) by omega]
        have hm2 : inner_measure (k, m) = (2 * m - k).toNat + 2 := by
          simp [inner_measure, hkm']
        rw [hm1, hm2]
        omega
  | false =>
    rw [hw] at hstep
    by_cases hskip : m > k - 1 + 2
    · have hne : ¬ (k - 1 + 2 = 0) := by omega
      simp [hskip, hne] at hstep
      subst hstep
      refine ⟨by omega, by omega, ?_⟩
      have hm1 : inner_measure (k - 1 + 2, m)
          = (2 * m - (k - 1 + 2)).toNat := by
        simp [inner_measure, show ¬ (k - 1 + 2 = m) by omega]
      have hm2 : inner_measure (k, m)
          = (2 * m - k).toNat + (if k = m then 2 else 0) := rfl
      rw [hm1, hm2]
      by_cases hkm : k = m
      · rw [if_pos hkm]; omega
      · rw [if_neg hkm]; omega
    · simp [hskip] at hstep

/-- With fuel at least the measure, the inner search loop halts. -/
theorem run_inner_halts (works_at : Int → Bool) :
    ∀ (fuel : Nat) (s : Int × Int), 1 ≤ s.1 → s.1 ≤ s.2 →
      inner_measure s ≤ fuel →
      run_inner works_at fuel s = none := by
  intro fuel
  induction fuel with
  | zero =>
    intro s h1 h2 hf
    exfalso
    have hle : (2 * s.2 - s.1).toNat ≤ inner_measure s :=
      Nat.le_add_right _ _
    omega
  | succ fuel ih =>
    intro s h1 h2 hf
    cases hstep : inner_step works_at s with
    | none => simp [run_inner, hstep]
    | some s' =>
      have hs : s = (s.1, s.2) := rfl
      obtain ⟨hs1, hs2, hs3⟩ :=
        inner_step_decrease works_at s.1 s.2 h1 h2 s' (by rw [← hs]; exact hstep)
      have hrec : run_inner works_at fuel s' = none :=
        ih s' hs1 hs2 (by rw [hs] at hf; omega)
      simp [run_inner, hstep, hrec]

/-- C9: the inner `while adjustment_works and min_adjustment` search of
`new_algorithm` performs only finitely many body executions — at most
`2·minimum + 2` — for EVERY outcome of the repeated STV re-evaluations
(`works_at` ranges over all oracles, covering every profile and every
set-iteration order), because the ceiling `minimum` is finite, `k` decreases
by one per ordinary iteration, and the `+2` skip-ahead (a net `+1` after the
decrement) fires only while `minimum > k + 1`, so `k` stays below `minimum`
and the loop exits. -/
theorem inner_search_terminates (works_at : Int → Bool) (k m : Int)
    (h1 : 1 ≤ k) (h2 : k ≤ m) :
    run_inner works_at ((2 * m).toNat + 2) (k, m) = none := by
  refine run_inner_halts works_at ((2 * m).toNat + 2) (k, m) h1 h2 ?_
  have hrfl : inner_measure (k, m) = (2 * m - k).toNat
      + (if k = m then 2 else 0) := rfl
  by_cases hkm : k = m
  · rw [hrfl, if_pos hkm]; omega
  · rw [hrfl, if_neg hkm]; omega

/-- Witness for C9 at a concrete input. -/
theorem inner_search_terminates_witness :
    ((1 : Int) ≤ 1 ∧ (1 : Int) ≤ 1) ∧
    run_inner (fun _ => false) ((2 * (1 : Int)).toNat + 2) (1, 1) = none :=
  ⟨⟨by decide, by decide⟩,
    inner_search_terminates (fun _ => false) 1 1 (by decide) (by decide)⟩

end STV
